import Mathlib

/-!
Verification development for the rule-content parsing and validation core of
insights-content-service.  The Go sources are shallowly embedded:

* `content/content.go` — the data model (`RuleContent`, `RuleContentDirectory`, …),
  the file-set loaders (`readFilesIntoString`, `readFilesIntoByteArray`),
  the rule-directory parser (`parseErrorContents`, `parseRuleContent`),
  the tree walker (`parseRulesInDir`) and the top-level `ParseRuleContentDir`.
  The filesystem is modelled as an in-memory tree (`FSEntry`); a Go `map` is
  modelled as an association list with overwrite-on-insert semantics (`SMap`).
  YAML deserialization is a third-party library; it is abstracted as a
  `Decoders` record of arbitrary total functions from the raw file text to
  `Except`-results, and all theorems quantify over it.
* the checker utility's `main` (group/tag cross-validation loops) — embedded as
  `validateErrorKey` / `validateContentDir` over the parsed model and a list of
  `Group` values, producing the tag→group association map and the emitted
  defect log entries.
-/

/-- Association list standing in for a Go `map[string]α`: `insert` overwrites
any existing binding, `find` retrieves the current binding. -/
abbrev SMap (α : Type) : Type := List (String × α)

/-- Go map assignment `m[k] = v`: the previous binding for `k` (if any) is
silently overwritten. -/
def SMap.insert {α : Type} (m : SMap α) (k : String) (v : α) : SMap α :=
  (k, v) :: m.filter (fun p => ¬ (p.1 = k))

/-- Go map lookup `m[k]` (as an `Option`, `none` when the key is absent). -/
def SMap.find {α : Type} (m : SMap α) (k : String) : Option α :=
  (m.find? (fun p => p.1 = k)).map Prod.snd

theorem SMap.find_nil {α : Type} (k : String) : SMap.find ([] : SMap α) k = none := rfl

theorem SMap.find_insert {α : Type} (m : SMap α) (k : String) (v : α) (k' : String) :
    SMap.find (SMap.insert m k v) k' = if k' = k then some v else SMap.find m k' := by
  by_cases h : k' = k
  · simp [SMap.insert, SMap.find, List.find?_cons, h]
  · have hk : ¬ (k = k') := fun hc => h hc.symm
    have hfun : (fun (a : String × α) => !decide (a.1 = k) && decide (a.1 = k')) =
        (fun a => decide (a.1 = k')) := by
      funext a
      by_cases ha : a.1 = k'
      · have hak : ¬ a.1 = k := fun hc => h (by rw [← ha, hc])
        simp [ha, hak, h]
      · simp [ha]
    simp [SMap.insert, SMap.find, List.find?_cons, hk, h, hfun]

theorem SMap.find_insert_self {α : Type} (m : SMap α) (k : String) (v : α) :
    SMap.find (SMap.insert m k v) k = some v := by
  simp [SMap.find_insert]

theorem SMap.find_insert_ne {α : Type} (m : SMap α) (k : String) (v : α) (k' : String)
    (h : k' ≠ k) : SMap.find (SMap.insert m k v) k' = SMap.find m k' := by
  simp [SMap.find_insert, h]

/-- Insertion never removes a key: whatever was present stays present. -/
theorem SMap.find_insert_isSome {α : Type} (m : SMap α) (k : String) (v : α) (k' : String)
    (h : (SMap.find m k').isSome) : (SMap.find (SMap.insert m k v) k').isSome := by
  by_cases hk : k' = k <;> simp [SMap.find_insert, hk, h]

/-!
In-memory model of a filesystem subtree: a regular file with raw text content,
or a directory with a finite ordered sequence of named entries.  `FSEntries`
is a specialized list type, mutually defined with `FSEntry` so that
tree-walking functions compile by structural recursion.
-/
mutual
inductive FSEntry : Type where
  | file (content : String)
  | dir (entries : FSEntries)
deriving DecidableEq
inductive FSEntries : Type where
  | nil
  | cons (name : String) (entry : FSEntry) (rest : FSEntries)
deriving DecidableEq
end

/-- View of a directory's entry sequence as an ordinary list of pairs, used in
specification statements. -/
def FSEntries.toList : FSEntries → List (String × FSEntry)
  | .nil => []
  | .cons n e rest => (n, e) :: rest.toList

/-- Look a name up among directory entries (directory entry names are unique on
a real filesystem; the first match is returned). -/
def lookupList (es : FSEntries) (name : String) : Option FSEntry :=
  match es with
  | .nil => none
  | .cons n e rest => if n = name then some e else lookupList rest name

/-- Look a name up directly below an `FSEntry` (none when it is a file). -/
def lookupFS (e : FSEntry) (name : String) : Option FSEntry :=
  match e with
  | .file _ => none
  | .dir es => lookupList es name

/-- Content of a regular file directly below a directory, when present. -/
def fileContent (es : FSEntries) (name : String) : Option String :=
  match lookupList es name with
  | some (.file c) => some c
  | _ => none
/-- Go representation of `config.yaml` (impact dictionary). -/
structure GlobalRuleConfig : Type where
  Impact : SMap Int
deriving DecidableEq

/-- Go representation of an error key's `metadata.yaml`. -/
structure ErrorKeyMetadata : Type where
  Condition : String
  Description : String
  Impact : String
  Likelihood : Int
  PublishDate : String
  Status : String
  Tags : List String
deriving DecidableEq

/-- Content of a single error key: `generic.md` text plus metadata. -/
structure RuleErrorKeyContent : Type where
  Generic : String
  Metadata : ErrorKeyMetadata
deriving DecidableEq

/-- Go representation of a rule's `plugin.yaml`. -/
structure RulePluginInfo : Type where
  Name : String
  NodeID : String
  ProductCode : String
  PythonModule : String
deriving DecidableEq

/-- All content of one rule. -/
structure RuleContent : Type where
  Summary : String
  Reason : String
  Resolution : String
  MoreInfo : String
  Plugin : RulePluginInfo
  ErrorKeys : SMap RuleErrorKeyContent
deriving DecidableEq

/-- Content for all available rules plus the global config. -/
structure RuleContentDirectory : Type where
  Config : GlobalRuleConfig
  Rules : SMap RuleContent
deriving DecidableEq

/-- Go zero value `ErrorKeyMetadata{}`. -/
def zeroErrorKeyMetadata : ErrorKeyMetadata := ⟨"", "", "", 0, "", "", []⟩

/-- Go zero value `RulePluginInfo{}`. -/
def zeroRulePluginInfo : RulePluginInfo := ⟨"", "", "", ""⟩

/-- Go zero value `RuleContent{}` (returned by `parseRuleContent` on error). -/
def zeroRuleContent : RuleContent := ⟨"", "", "", "", zeroRulePluginInfo, []⟩

/-- Go zero value `GlobalRuleConfig{}`. -/
def zeroGlobalRuleConfig : GlobalRuleConfig := ⟨[]⟩

/-- Go zero value `RuleContentDirectory{}` (returned when `config.yaml` fails). -/
def zeroRuleContentDirectory : RuleContentDirectory := ⟨zeroGlobalRuleConfig, []⟩

/-- Errors produced by the parsing pipeline.  `fileRead`/`dirRead` carry the
path of the offending file or directory (as Go's `*PathError` does); YAML
format errors carry only the library's message (as `yaml.Unmarshal` does). -/
inductive ContentError : Type where
  | fileRead (path : List String)
  | dirRead (path : List String)
  | yamlErr (msg : String)
deriving DecidableEq

/-- Abstraction of the third-party YAML deserializer: one arbitrary total
decoding function per target record shape.  Every theorem below holds for an
arbitrary `Decoders` value. -/
structure Decoders : Type where
  config : String → Except String GlobalRuleConfig
  plugin : String → Except String RulePluginInfo
  meta : String → Except String ErrorKeyMetadata

/-- Model of `ioutil.ReadFile(path.Join(baseDir, name))`: succeeds with the
content iff `name` is a regular file in the directory; the error carries the
full path. -/
def readFile (pfx : List String) (es : FSEntries) (name : String) :
    Except ContentError String :=
  match lookupList es name with
  | some (.file c) => .ok c
  | _ => .error (.fileRead (pfx ++ [name]))

/-- Loop body shared by both file-set loaders: read each listed file in order,
accumulating a name→content map; the first failure aborts the whole call and
returns the empty map together with the error (Go returns `nil, err`). -/
def readFilesLoop (pfx : List String) (es : FSEntries) :
    List String → SMap String → SMap String × Option ContentError
  | [], acc => (acc, none)
  | n :: rest, acc =>
    match readFile pfx es n with
    | .error e => ([], some e)
    | .ok c => readFilesLoop pfx es rest (SMap.insert acc n c)

/-- Embedding of `readFilesIntoString` (text variant of the file-set loader). -/
def readFilesIntoString (pfx : List String) (es : FSEntries)
    (filelist : List String) : SMap String × Option ContentError :=
  readFilesLoop pfx es filelist []

/-- Embedding of `readFilesIntoByteArray` (byte variant; file bytes are
modelled by the same raw text). -/
def readFilesIntoByteArray (pfx : List String) (es : FSEntries)
    (filelist : List String) : SMap String × Option ContentError :=
  readFilesLoop pfx es filelist []

/-- Embedding of `parseErrorContents`' loop over the rule directory's entries:
every subdirectory is parsed as an error key (read `generic.md`, read and
decode `metadata.yaml`); non-directories are skipped; the first failure
returns the map accumulated so far together with the error. -/
def parseErrorEntries (D : Decoders) (pfx : List String) :
    FSEntries → SMap RuleErrorKeyContent →
    SMap RuleErrorKeyContent × Option ContentError
  | .nil, m => (m, none)
  | .cons n e rest, m =>
    match e with
    | .file _ => parseErrorEntries D pfx rest m
    | .dir sub =>
      match readFilesIntoString (pfx ++ [n]) sub ["generic.md"] with
      | (_, some err) => (m, some err)
      | (readStrings, none) =>
        match readFilesIntoByteArray (pfx ++ [n]) sub ["metadata.yaml"] with
        | (_, some err) => (m, some err)
        | (readBytes, none) =>
          match D.meta ((SMap.find readBytes "metadata.yaml").getD "") with
          | .error msg => (m, some (.yamlErr msg))
          | .ok md =>
            parseErrorEntries D pfx rest
              (SMap.insert m n ⟨(SMap.find readStrings "generic.md").getD "", md⟩)

/-- Embedding of `parseErrorContents` on a rule directory's entry sequence. -/
def parseErrorContents (D : Decoders) (pfx : List String)
    (entries : FSEntries) : SMap RuleErrorKeyContent × Option ContentError :=
  parseErrorEntries D pfx entries []

/-- Names of the four pass-through documentation files of a rule directory. -/
def contentFileNames : List String := ["summary.md", "reason.md", "resolution.md", "more_info.md"]

/-- Embedding of `parseRuleContent` on a rule directory's entry sequence: parse
all error-key subdirectories, load the four documentation files, load and
decode `plugin.yaml`; any failure yields the zero `RuleContent` plus the
error. -/
def parseRuleContent (D : Decoders) (pfx : List String)
    (entries : FSEntries) : RuleContent × Option ContentError :=
  match parseErrorContents D pfx entries with
  | (_, some err) => (zeroRuleContent, some err)
  | (errorContents, none) =>
    match readFilesIntoString pfx entries contentFileNames with
    | (_, some err) => (zeroRuleContent, some err)
    | (readStrings, none) =>
      match readFilesIntoByteArray pfx entries ["plugin.yaml"] with
      | (_, some err) => (zeroRuleContent, some err)
      | (readBytes, none) =>
        match D.plugin ((SMap.find readBytes "plugin.yaml").getD "") with
        | .error msg => (zeroRuleContent, some (.yamlErr msg))
        | .ok plug =>
          ({ Summary := (SMap.find readStrings "summary.md").getD ""
             Reason := (SMap.find readStrings "reason.md").getD ""
             Resolution := (SMap.find readStrings "resolution.md").getD ""
             MoreInfo := (SMap.find readStrings "more_info.md").getD ""
             Plugin := plug
             ErrorKeys := errorContents }, none)

/-- Test for `os.Stat(subdir/plugin.yaml)` succeeding on a regular file: the
sole discriminator making a directory a rule directory. -/
def hasPluginFile (sub : FSEntries) : Bool :=
  match lookupList sub "plugin.yaml" with
  | some (.file _) => true
  | _ => false

/-!
Embedding of the body of `parseRulesInDir`, split over the mutual filesystem
type.  `walkEntry` processes one directory entry named `n`: a non-directory is
ignored; a subdirectory directly containing `plugin.yaml` (regular file) is
parsed as a rule and inserted under its own name; any other subdirectory is
recursed into with the same accumulator.  `walkEntries` folds `walkEntry` over
the entries, aborting on the first failure and returning the map accumulated
so far together with the error.
-/
mutual
def walkEntry (D : Decoders) (pfx : List String) (n : String)
    (m : SMap RuleContent) : FSEntry → SMap RuleContent × Option ContentError
  | .file _ => (m, none)
  | .dir sub =>
    if hasPluginFile sub then
      match parseRuleContent D (pfx ++ [n]) sub with
      | (_, some err) => (m, some err)
      | (rc, none) => (SMap.insert m n rc, none)
    else walkEntries D (pfx ++ [n]) sub m
def walkEntries (D : Decoders) (pfx : List String) :
    FSEntries → SMap RuleContent → SMap RuleContent × Option ContentError
  | .nil, m => (m, none)
  | .cons n e rest, m =>
    match walkEntry D pfx n m e with
    | (m', none) => walkEntries D pfx rest m'
    | r => r
end

/-- Embedding of `parseRulesInDir`: `ReadDir` fails when the path is not a
directory; otherwise walk its entries. -/
def parseRulesInDir (D : Decoders) (pfx : List String) (e : FSEntry)
    (m : SMap RuleContent) : SMap RuleContent × Option ContentError :=
  match e with
  | .file _ => (m, some (.dirRead pfx))
  | .dir entries => walkEntries D pfx entries m

/-- Embedding of `parseGlobalContentConfig(contentDirPath/config.yaml)`. -/
def readRootConfig (D : Decoders) (root : FSEntry) :
    Except ContentError GlobalRuleConfig :=
  match lookupFS root "config.yaml" with
  | some (.file c) =>
    match D.config c with
    | .ok cfg => .ok cfg
    | .error msg => .error (.yamlErr msg)
  | _ => .error (.fileRead ["config.yaml"])

/-- Walk one of the two top-level roots (`external` / `internal`): a missing
root subdirectory means `ReadDir` fails immediately. -/
def walkRoot (D : Decoders) (root : FSEntry) (sub : String)
    (m : SMap RuleContent) : SMap RuleContent × Option ContentError :=
  match lookupFS root sub with
  | some e => parseRulesInDir D [sub] e m
  | none => (m, some (.dirRead [sub]))

/-- Embedding of `ParseRuleContentDir`: load `config.yaml` (failure returns the
zero directory), then walk `external` and `internal` with one shared rules
accumulator, returning the (possibly partially populated) directory alongside
any walk error. -/
def ParseRuleContentDir (D : Decoders) (root : FSEntry) :
    RuleContentDirectory × Option ContentError :=
  match readRootConfig D root with
  | .error e => (zeroRuleContentDirectory, some e)
  | .ok cfg =>
    match walkRoot D root "external" [] with
    | (m, some err) => ({ Config := cfg, Rules := m }, some err)
    | (mExt, none) =>
      match walkRoot D root "internal" mExt with
      | (mFin, some err) => ({ Config := cfg, Rules := mFin }, some err)
      | (mFin, none) => ({ Config := cfg, Rules := mFin }, none)

/-- A tag group from the group configuration: a name plus the tags it owns. -/
structure TagGroup : Type where
  Name : String
  Tags : List String
deriving DecidableEq

/-- Defect log entries emitted by the cross-validator: `duplicateTag` for
"duplicate tag '%s' in content of '%s|%s'", `invalidTag` (orphan tag) for
"invalid tag '%s' in content of '%s|%s'". -/
inductive Defect : Type where
  | duplicateTag (rule errKey tag : String)
  | invalidTag (rule errKey tag : String)
deriving DecidableEq

/-- Embedding of the group-search double loop: for each group in order, if any
of its tags equals `errTag`, remember that group's name (the inner `break`
only leaves the tag loop, so a later matching group overwrites an earlier
one). -/
def findGroupLast (groupCfg : List TagGroup) (errTag : String) : Option String :=
  groupCfg.foldl (fun acc g => if errTag ∈ g.Tags then some g.Name else acc) none

/-- Embedding of one iteration of the per-tag loop of the checker: report a
duplicate when the tag is already bound in `errGroups`, then run the group
search (assigning the binding when some group matches), then report an orphan
when the tag is still unbound. -/
def validateTagStep (groupCfg : List TagGroup) (ruleName errCode : String)
    (st : SMap String × List Defect) (errTag : String) : SMap String × List Defect :=
  let dups :=
    if (SMap.find st.1 errTag).isSome then
      st.2 ++ [Defect.duplicateTag ruleName errCode errTag]
    else st.2
  let eg :=
    match findGroupLast groupCfg errTag with
    | some gname => SMap.insert st.1 errTag gname
    | none => st.1
  let defects :=
    if (SMap.find eg errTag).isSome then dups
    else dups ++ [Defect.invalidTag ruleName errCode errTag]
  (eg, defects)

/-- Embedding of the per-error-key validation: fold the per-tag step over the
error key's tag sequence, starting from an empty `errGroups` map and no
defects; yields the final tag→group association map and the defect log. -/
def validateErrorKey (groupCfg : List TagGroup) (ruleName errCode : String)
    (tags : List String) : SMap String × List Defect :=
  tags.foldl (validateTagStep groupCfg ruleName errCode) ([], [])

/-- Embedding of the checker's outer loops: for every rule and every error key
of the parsed tree, validate its tag sequence; collect the per-error-key
association maps and concatenate all defect log entries. -/
def validateContentDir (d : RuleContentDirectory) (groupCfg : List TagGroup) :
    List (String × String × SMap String) × List Defect :=
  (d.Rules.flatMap (fun p =>
      p.2.ErrorKeys.map (fun q =>
        (p.1, q.1, (validateErrorKey groupCfg p.1 q.1 q.2.Metadata.Tags).1))),
   d.Rules.flatMap (fun p =>
      p.2.ErrorKeys.flatMap (fun q =>
        (validateErrorKey groupCfg p.1 q.1 q.2.Metadata.Tags).2)))

/-- The group search resolves to the last matching group: folding the search
loop equals taking the first match in the reversed group list (with the
accumulator as fallback). -/
theorem foldl_resolve_eq (gs : List TagGroup) (t : String) (acc : Option String) :
    gs.foldl (fun acc g => if t ∈ g.Tags then some g.Name else acc) acc =
      match gs.reverse.find? (fun g => decide (t ∈ g.Tags)) with
      | some g => some g.Name
      | none => acc := by
  induction gs generalizing acc with
  | nil => rfl
  | cons g gs ih =>
    rw [List.foldl_cons, ih, List.reverse_cons, List.find?_append]
    cases hfind : gs.reverse.find? (fun g => decide (t ∈ g.Tags)) <;>
      by_cases hm : t ∈ g.Tags <;>
        simp [hfind, hm, Option.orElse]

/-- `findGroupLast` picks the last group whose tag set contains the tag. -/
theorem findGroupLast_eq (gs : List TagGroup) (t : String) :
    findGroupLast gs t =
      (gs.reverse.find? (fun g => decide (t ∈ g.Tags))).map TagGroup.Name := by
  rw [findGroupLast, foldl_resolve_eq]
  cases hfind : gs.reverse.find? (fun g => decide (t ∈ g.Tags)) <;> simp [hfind]

/-- The group search succeeds iff some group contains the tag. -/
theorem findGroupLast_isSome_iff (gs : List TagGroup) (t : String) :
    (findGroupLast gs t).isSome ↔ ∃ g ∈ gs, t ∈ g.Tags := by
  rw [findGroupLast_eq]
  simp [List.find?_isSome]

/-- First component of one per-tag validation step: the binding for the tag is
set to the group search's result when a group matches, otherwise kept. -/
theorem validateTagStep_fst (groupCfg : List TagGroup) (rn ek : String)
    (st : SMap String × List Defect) (t : String) :
    (validateTagStep groupCfg rn ek st t).1 =
      match findGroupLast groupCfg t with
      | some gname => SMap.insert st.1 t gname
      | none => st.1 := rfl

/-- Association map computed by the per-tag loop: a tag is bound iff it occurs
in the processed tags and some group matched it, and then it is bound to the
group search's result; other bindings of the initial map are untouched. -/
theorem validate_assoc_lookup (groupCfg : List TagGroup) (rn ek : String) :
    ∀ (tags : List String) (eg : SMap String) (defs : List Defect) (u : String),
    SMap.find ((tags.foldl (validateTagStep groupCfg rn ek) (eg, defs)).1) u =
      if u ∈ tags ∧ (findGroupLast groupCfg u).isSome then findGroupLast groupCfg u
      else SMap.find eg u := by
  intro tags
  induction tags with
  | nil => intro eg defs u; simp
  | cons t rest ih =>
    intro eg defs u
    rcases hst : validateTagStep groupCfg rn ek (eg, defs) t with ⟨eg', defs'⟩
    have heg' : eg' =
        match findGroupLast groupCfg t with
        | some gname => SMap.insert eg t gname
        | none => eg := by
      have h1 := congrArg Prod.fst hst
      rw [validateTagStep_fst] at h1
      exact h1.symm
    rw [List.foldl_cons, hst, ih eg' defs' u]
    cases hfg : findGroupLast groupCfg t with
    | none =>
      rw [hfg] at heg'
      simp only at heg'
      rw [heg']
      by_cases hut : u = t
      · subst hut; simp [hfg]
      · simp [List.mem_cons, hut]
    | some n =>
      rw [hfg] at heg'
      simp only at heg'
      rw [heg']
      by_cases hut : u = t
      · subst hut
        by_cases hur : u ∈ rest <;>
          simp [hfg, hur, SMap.find_insert]
      · rw [SMap.find_insert_ne _ _ _ _ hut]
        simp [List.mem_cons, hut]

/-- Association map of a full per-error-key validation. -/
theorem validateErrorKey_assoc (groupCfg : List TagGroup) (rn ek : String)
    (tags : List String) (u : String) :
    SMap.find (validateErrorKey groupCfg rn ek tags).1 u =
      if u ∈ tags ∧ (findGroupLast groupCfg u).isSome then findGroupLast groupCfg u
      else none := by
  rw [validateErrorKey, validate_assoc_lookup]
  rfl

/-- Specification-side description of the defect log of one error key, derived
from the loop: scanning the tag sequence with the set of already-seen tags, an
occurrence of a tag that matched some group and was seen before yields a
duplicate-tag defect, an occurrence of a tag matching no group yields an
orphan (invalid-tag) defect. -/
def specDefects (groupCfg : List TagGroup) (rn ek : String) :
    List String → List String → List Defect
  | _, [] => []
  | seen, t :: rest =>
    ((if (findGroupLast groupCfg t).isSome ∧ t ∈ seen
        then [Defect.duplicateTag rn ek t] else [])
      ++ (if (findGroupLast groupCfg t).isSome then []
        else [Defect.invalidTag rn ek t]))
      ++ specDefects groupCfg rn ek (t :: seen) rest

/-- Defect log computed by the per-tag loop equals the specification-side
description, given that the accumulated map binds exactly the already-seen
tags that matched some group. -/
theorem validate_defects_eq (groupCfg : List TagGroup) (rn ek : String) :
    ∀ (tags seen : List String) (eg : SMap String) (defs : List Defect),
    (∀ u, (SMap.find eg u).isSome ↔ ((findGroupLast groupCfg u).isSome ∧ u ∈ seen)) →
    (tags.foldl (validateTagStep groupCfg rn ek) (eg, defs)).2 =
      defs ++ specDefects groupCfg rn ek seen tags := by
  intro tags
  induction tags with
  | nil => intro seen eg defs hinv; simp [specDefects]
  | cons t rest ih =>
    intro seen eg defs hinv
    rcases hst : validateTagStep groupCfg rn ek (eg, defs) t with ⟨eg', defs'⟩
    rw [List.foldl_cons, hst]
    cases hfg : findGroupLast groupCfg t with
    | some n =>
      have heg' : eg' = SMap.insert eg t n := by
        have h1 := congrArg Prod.fst hst
        rw [validateTagStep_fst, hfg] at h1
        exact h1.symm
      have hdefs' : defs' = defs ++
          (if (findGroupLast groupCfg t).isSome ∧ t ∈ seen
            then [Defect.duplicateTag rn ek t] else []) := by
        have h2 := congrArg Prod.snd hst
        rw [validateTagStep] at h2
        simp only [hfg] at h2
        rw [SMap.find_insert_self] at h2
        by_cases hseen : t ∈ seen
        · have : (SMap.find eg t).isSome := (hinv t).2 ⟨by simp [hfg], hseen⟩
          simp [this, hfg, hseen] at h2 ⊢
          exact h2.symm
        · have : ¬ (SMap.find eg t).isSome := by
            rw [hinv t]; exact fun h => hseen h.2
          simp [this, hfg, hseen] at h2 ⊢
          exact h2.symm
      have hinv' : ∀ u, (SMap.find eg' u).isSome ↔
          ((findGroupLast groupCfg u).isSome ∧ u ∈ t :: seen) := by
        intro u
        rw [heg']
        by_cases hut : u = t
        · subst hut
          simp [SMap.find_insert_self, hfg]
        · rw [SMap.find_insert_ne _ _ _ _ hut, hinv u]
          simp [List.mem_cons, hut]
      rw [ih (t :: seen) eg' defs' hinv', hdefs']
      rw [specDefects]
      simp [hfg, List.append_assoc]
    | none =>
      have heg' : eg' = eg := by
        have h1 := congrArg Prod.fst hst
        rw [validateTagStep_fst, hfg] at h1
        exact h1.symm
      have hnone : ¬ (SMap.find eg t).isSome := by
        rw [hinv t]
        intro h
        rw [hfg] at h
        simp at h
      have hdefs' : defs' = defs ++ [Defect.invalidTag rn ek t] := by
        have h2 := congrArg Prod.snd hst
        rw [validateTagStep] at h2
        simp only [hfg] at h2
        simp [hnone] at h2
        exact h2.symm
      have hinv' : ∀ u, (SMap.find eg' u).isSome ↔
          ((findGroupLast groupCfg u).isSome ∧ u ∈ t :: seen) := by
        intro u
        rw [heg', hinv u]
        by_cases hut : u = t
        · subst hut
          simp [hfg]
        · simp [List.mem_cons, hut]
      rw [ih (t :: seen) eg' defs' hinv', hdefs']
      rw [specDefects]
      simp [hfg, List.append_assoc]

/-- Defect log of a full per-error-key validation. -/
theorem validateErrorKey_defects (groupCfg : List TagGroup) (rn ek : String)
    (tags : List String) :
    (validateErrorKey groupCfg rn ek tags).2 = specDefects groupCfg rn ek [] tags := by
  rw [validateErrorKey]
  have h := validate_defects_eq groupCfg rn ek tags [] [] []
    (by intro u; simp [SMap.find_nil])
  simpa using h

/-- Number of duplicate-tag defects for one tag: when some group matches the
tag, one defect per occurrence beyond the first (all occurrences when the tag
counts as already seen); when no group matches, none at all. -/
theorem specDefects_count_dup (groupCfg : List TagGroup) (rn ek t : String) :
    ∀ (tags seen : List String),
    (specDefects groupCfg rn ek seen tags).count (Defect.duplicateTag rn ek t) =
      if (findGroupLast groupCfg t).isSome then
        (if t ∈ seen then tags.count t else tags.count t - 1)
      else 0 := by
  intro tags
  induction tags with
  | nil => intro seen; simp [specDefects]
  | cons t' rest ih =>
    intro seen
    rw [specDefects]
    rw [List.count_append, List.count_append, ih (t' :: seen)]
    by_cases htt : t' = t
    · subst htt
      by_cases hM : (findGroupLast groupCfg t').isSome
      · by_cases hseen : t' ∈ seen
        · simp [hM, hseen, List.count_cons]
          omega
        · simp [hM, hseen, List.count_cons]
      · simp [hM, List.count_cons]
    · have htt' : ¬ t = t' := fun h => htt h.symm
      have hne : (Defect.duplicateTag rn ek t') ≠ (Defect.duplicateTag rn ek t) := by
        simp [htt]
      by_cases hM : (findGroupLast groupCfg t').isSome <;>
        by_cases hseen : t' ∈ seen <;>
          simp [hM, hseen, List.count_cons, hne, htt, htt', List.mem_cons]

/-- Number of orphan (invalid-tag) defects for one tag: when no group matches
the tag, one defect per occurrence; when some group matches, none. -/
theorem specDefects_count_inv (groupCfg : List TagGroup) (rn ek t : String) :
    ∀ (tags seen : List String),
    (specDefects groupCfg rn ek seen tags).count (Defect.invalidTag rn ek t) =
      if (findGroupLast groupCfg t).isSome then 0 else tags.count t := by
  intro tags
  induction tags with
  | nil => intro seen; simp [specDefects]
  | cons t' rest ih =>
    intro seen
    rw [specDefects]
    rw [List.count_append, List.count_append, ih (t' :: seen)]
    by_cases htt : t' = t
    · subst htt
      by_cases hM : (findGroupLast groupCfg t').isSome
      · by_cases hseen : t' ∈ seen <;> simp [hM, hseen, List.count_cons]
      · simp [hM, List.count_cons]
        omega
    · have htt' : ¬ t = t' := fun h => htt h.symm
      have hne : (Defect.invalidTag rn ek t') ≠ (Defect.invalidTag rn ek t) := by
        simp [htt]
      by_cases hM : (findGroupLast groupCfg t').isSome <;>
        by_cases hseen : t' ∈ seen <;>
          simp [hM, hseen, List.count_cons, hne, htt, htt']

/-- Duplicate-tag defect count of a full per-error-key validation. -/
theorem validateErrorKey_count_dup (groupCfg : List TagGroup) (rn ek : String)
    (tags : List String) (t : String) :
    (validateErrorKey groupCfg rn ek tags).2.count (Defect.duplicateTag rn ek t) =
      if (findGroupLast groupCfg t).isSome then tags.count t - 1 else 0 := by
  rw [validateErrorKey_defects, specDefects_count_dup]
  simp

/-- Orphan-tag defect count of a full per-error-key validation. -/
theorem validateErrorKey_count_inv (groupCfg : List TagGroup) (rn ek : String)
    (tags : List String) (t : String) :
    (validateErrorKey groupCfg rn ek tags).2.count (Defect.invalidTag rn ek t) =
      if (findGroupLast groupCfg t).isSome then 0 else tags.count t := by
  rw [validateErrorKey_defects, specDefects_count_inv]

/-- C1, claim as stated is false: with two groups `g1`, `g2` (in that order)
both declaring tag `t`, an error key tagged `t` is associated to `g2`, the
group appearing later in the group list, not to the earlier-listed `g1`. -/
theorem c1_counterexample :
    SMap.find (validateErrorKey
      [⟨"g1", ["t"]⟩, ⟨"g2", ["t"]⟩] "rule" "ek" ["t"]).1 "t" = some "g2" ∧
    SMap.find (validateErrorKey
      [⟨"g1", ["t"]⟩, ⟨"g2", ["t"]⟩] "rule" "ek" ["t"]).1 "t" ≠ some "g1" := by
  decide

/-- C1 (amended): for every error key and every tag in its tag sequence, when
two or more groups in the supplied group list declare that tag, the
cross-validator resolves the tag to the group that appears LATER in the group
list (last-match tie-break: the inner loop's break leaves only the tag loop,
so a later-listed group overwrites an earlier one), deterministically, and
records that group's name as the tag's association. -/
theorem c1_last_match_wins (groupCfg : List TagGroup) (rn ek : String)
    (tags : List String) (t : String) (g : TagGroup)
    (hmem : t ∈ tags)
    (htwo : 2 ≤ (groupCfg.filter (fun gr => decide (t ∈ gr.Tags))).length)
    (hlast : groupCfg.reverse.find? (fun gr => decide (t ∈ gr.Tags)) = some g) :
    SMap.find (validateErrorKey groupCfg rn ek tags).1 t = some g.Name := by
  have hM : (findGroupLast groupCfg t).isSome := by
    rw [findGroupLast_eq, hlast]
    rfl
  rw [validateErrorKey_assoc, if_pos ⟨hmem, hM⟩, findGroupLast_eq, hlast]
  rfl

/-- C1 witness: concrete instance of the amended claim. -/
theorem c1_witness :
    SMap.find (validateErrorKey
      [⟨"gA", ["u"]⟩, ⟨"gB", ["u"]⟩] "r1" "e1" ["u"]).1 "u" = some "gB" :=
  c1_last_match_wins [⟨"gA", ["u"]⟩, ⟨"gB", ["u"]⟩] "r1" "e1" ["u"] "u"
    ⟨"gB", ["u"]⟩ (by decide) (by decide) (by decide)

/-- C2, claim as stated is false: with an empty group list and an error key
whose tag sequence is `[t, t]`, the validator reports no duplicate-tag defect
at all (the duplicate check consults the association map, which never receives
unresolvable tags) and two orphan-tag defects (one per occurrence, not one per
distinct tag). -/
theorem c2_counterexample :
    (validateErrorKey ([] : List TagGroup) "rule" "ek" ["t", "t"]).2.count
        (Defect.duplicateTag "rule" "ek" "t") = 0 ∧
    (validateErrorKey ([] : List TagGroup) "rule" "ek" ["t", "t"]).2.count
        (Defect.invalidTag "rule" "ek" "t") = 2 ∧
    (0 : Nat) ≠ 1 := by
  decide

/-- C2 (amended): for every error key whose tag sequence contains the same tag
exactly twice, the cross-validator reports exactly one duplicate-tag defect
for that (rule, error key, tag) triple when at least one group contains the
tag, and none otherwise; in particular, with an empty group list a repeated
tag yields no duplicate-tag defect and one orphan-tag defect per occurrence
(two for the doubly-occurring tag). -/
theorem c2_duplicate_defects (groupCfg : List TagGroup) (rn ek : String)
    (tags : List String) (t : String) (hcount : tags.count t = 2) :
    (validateErrorKey groupCfg rn ek tags).2.count (Defect.duplicateTag rn ek t) =
      (if ∃ g ∈ groupCfg, t ∈ g.Tags then 1 else 0) ∧
    (groupCfg = [] →
      (validateErrorKey groupCfg rn ek tags).2.count (Defect.duplicateTag rn ek t) = 0 ∧
      (validateErrorKey groupCfg rn ek tags).2.count (Defect.invalidTag rn ek t) = 2) := by
  constructor
  · rw [validateErrorKey_count_dup, hcount]
    by_cases hE : ∃ g ∈ groupCfg, t ∈ g.Tags
    · rw [if_pos ((findGroupLast_isSome_iff _ _).2 hE), if_pos hE]
    · rw [if_neg (fun h => hE ((findGroupLast_isSome_iff _ _).1 h)), if_neg hE]
  · intro hnil
    subst hnil
    constructor
    · rw [validateErrorKey_count_dup]
      simp [findGroupLast]
    · rw [validateErrorKey_count_inv, hcount]
      simp [findGroupLast]

/-- C2 witness: concrete instance of the amended claim (one matching group,
tag repeated twice). -/
theorem c2_witness :
    (["u", "u"] : List String).count "u" = 2 ∧
    ((validateErrorKey [⟨"gC", ["u"]⟩] "r2" "e2" ["u", "u"]).2.count
        (Defect.duplicateTag "r2" "e2" "u") =
      (if ∃ g ∈ [(⟨"gC", ["u"]⟩ : TagGroup)], "u" ∈ g.Tags then 1 else 0) ∧
    ([(⟨"gC", ["u"]⟩ : TagGroup)] = [] →
      (validateErrorKey [⟨"gC", ["u"]⟩] "r2" "e2" ["u", "u"]).2.count
          (Defect.duplicateTag "r2" "e2" "u") = 0 ∧
      (validateErrorKey [⟨"gC", ["u"]⟩] "r2" "e2" ["u", "u"]).2.count
          (Defect.invalidTag "r2" "e2" "u") = 2)) :=
  ⟨by decide,
    c2_duplicate_defects [⟨"gC", ["u"]⟩] "r2" "e2" ["u", "u"] "u" (by decide)⟩

/-- C4, claim as stated is false: an error key whose tag sequence contains an
orphan tag twice receives two orphan-tag defects for that tag, not exactly
one. -/
theorem c4_counterexample :
    (validateErrorKey ([] : List TagGroup) "rule" "ek" ["t", "t"]).2.count
        (Defect.invalidTag "rule" "ek" "t") = 2 ∧
    (2 : Nat) ≠ 1 := by
  decide

/-- C4 (amended): for every error key whose tag sequence contains a tag that
appears in no group's tag set, the cross-validator reports one orphan-tag
defect per occurrence of that tag (hence at least one, and exactly one when
the tag occurs exactly once) and records no tag→group association for it: the
tag is absent from the association map, not mapped to a sentinel. -/
theorem c4_orphan_per_occurrence (groupCfg : List TagGroup) (rn ek : String)
    (tags : List String) (t : String) (hmem : t ∈ tags)
    (hno : ∀ g ∈ groupCfg, t ∉ g.Tags) :
    (validateErrorKey groupCfg rn ek tags).2.count (Defect.invalidTag rn ek t) =
      tags.count t ∧
    1 ≤ (validateErrorKey groupCfg rn ek tags).2.count (Defect.invalidTag rn ek t) ∧
    SMap.find (validateErrorKey groupCfg rn ek tags).1 t = none := by
  have hM : ¬ (findGroupLast groupCfg t).isSome := by
    rw [findGroupLast_isSome_iff]
    rintro ⟨g, hg, ht⟩
    exact hno g hg ht
  refine ⟨?_, ?_, ?_⟩
  · rw [validateErrorKey_count_inv, if_neg hM]
  · rw [validateErrorKey_count_inv, if_neg hM]
    exact List.count_pos_iff.2 hmem
  · rw [validateErrorKey_assoc]
    simp [hM]

/-- C4 witness: concrete instance of the amended claim (orphan tag occurring
once: exactly one orphan defect, no association). -/
theorem c4_witness :
    ("v" ∈ (["v"] : List String)) ∧
    ((validateErrorKey ([] : List TagGroup) "r3" "e3" ["v"]).2.count
        (Defect.invalidTag "r3" "e3" "v") = (["v"] : List String).count "v" ∧
    1 ≤ (validateErrorKey ([] : List TagGroup) "r3" "e3" ["v"]).2.count
        (Defect.invalidTag "r3" "e3" "v") ∧
    SMap.find (validateErrorKey ([] : List TagGroup) "r3" "e3" ["v"]).1 "v" = none) :=
  ⟨by decide,
    c4_orphan_per_occurrence [] "r3" "e3" ["v"] "v" (by decide)
      (by intro g hg; simp at hg)⟩

/-- C8: the cross-validator is a pure function of the parsed tree and the
group list (the embedding performs no mutation), and its report is stable
across runs: iterating the rules in any order (Go map iteration order is
arbitrary) yields the same per-error-key associations and the same defect
reports up to permutation. -/
theorem c8_validator_deterministic (cfg : GlobalRuleConfig)
    (rules rules' : SMap RuleContent) (groupCfg : List TagGroup)
    (hperm : rules.Perm rules') :
    (validateContentDir ⟨cfg, rules⟩ groupCfg).1.Perm
      (validateContentDir ⟨cfg, rules'⟩ groupCfg).1 ∧
    (validateContentDir ⟨cfg, rules⟩ groupCfg).2.Perm
      (validateContentDir ⟨cfg, rules'⟩ groupCfg).2 ∧
    validateContentDir ⟨cfg, rules⟩ groupCfg =
      validateContentDir ⟨cfg, rules⟩ groupCfg :=
  ⟨hperm.flatMap_right _, hperm.flatMap_right _, rfl⟩

/-- C8 witness: concrete instance with two rules listed in either order. -/
theorem c8_witness :
    (([("rA", zeroRuleContent), ("rB", zeroRuleContent)] : SMap RuleContent).Perm
      [("rB", zeroRuleContent), ("rA", zeroRuleContent)]) ∧
    ((validateContentDir ⟨zeroGlobalRuleConfig,
        [("rA", zeroRuleContent), ("rB", zeroRuleContent)]⟩ []).1.Perm
      (validateContentDir ⟨zeroGlobalRuleConfig,
        [("rB", zeroRuleContent), ("rA", zeroRuleContent)]⟩ []).1 ∧
    (validateContentDir ⟨zeroGlobalRuleConfig,
        [("rA", zeroRuleContent), ("rB", zeroRuleContent)]⟩ []).2.Perm
      (validateContentDir ⟨zeroGlobalRuleConfig,
        [("rB", zeroRuleContent), ("rA", zeroRuleContent)]⟩ []).2 ∧
    validateContentDir ⟨zeroGlobalRuleConfig,
        [("rA", zeroRuleContent), ("rB", zeroRuleContent)]⟩ [] =
      validateContentDir ⟨zeroGlobalRuleConfig,
        [("rA", zeroRuleContent), ("rB", zeroRuleContent)]⟩ []) :=
  ⟨by decide,
    c8_validator_deterministic zeroGlobalRuleConfig
      [("rA", zeroRuleContent), ("rB", zeroRuleContent)]
      [("rB", zeroRuleContent), ("rA", zeroRuleContent)] [] (by decide)⟩

/-- Structural induction principle for entry sequences (recursion only along
the sequence, treating the entries themselves as opaque). -/
theorem FSEntries.inductionOn {motive : FSEntries → Prop} (es : FSEntries)
    (hnil : motive .nil)
    (hcons : ∀ n e rest, motive rest → motive (.cons n e rest)) : motive es :=
  match es with
  | .nil => hnil
  | .cons n e rest => hcons n e rest (rest.inductionOn hnil hcons)

/-- A successful `readFile` returns exactly the file's content. -/
theorem readFile_eq_ok (pfx : List String) (es : FSEntries) (n : String) (c : String)
    (h : fileContent es n = some c) : readFile pfx es n = .ok c := by
  rw [readFile]
  rw [fileContent] at h
  rcases hlk : lookupList es n with _ | e
  · rw [hlk] at h; simp at h
  · cases e with
    | file c' => rw [hlk] at h; simp at h; rw [h]
    | dir sub => rw [hlk] at h; simp at h

/-- A failed `readFile` reports the full path of the unreadable file. -/
theorem readFile_eq_error (pfx : List String) (es : FSEntries) (n : String)
    (h : ¬ (fileContent es n).isSome) :
    readFile pfx es n = .error (.fileRead (pfx ++ [n])) := by
  rw [readFile]
  rw [fileContent] at h
  rcases hlk : lookupList es n with _ | e
  · rfl
  · cases e with
    | file c' => rw [hlk] at h; simp at h
    | dir sub => rfl

/-- Conversely, a successful `readFile` implies the file exists with that
content. -/
theorem readFile_ok_fileContent (pfx : List String) (es : FSEntries) (n : String)
    (c : String) (h : readFile pfx es n = .ok c) : fileContent es n = some c := by
  rw [readFile] at h
  rw [fileContent]
  rcases hlk : lookupList es n with _ | e
  · rw [hlk] at h; simp at h
  · cases e with
    | file c' => rw [hlk] at h; simp at h; rw [h]
    | dir sub => rw [hlk] at h; simp at h

/-- A successful loader run implies every listed file was readable. -/
theorem readFilesLoop_none_readable (pfx : List String) (es : FSEntries) :
    ∀ (names : List String) (acc : SMap String),
    (readFilesLoop pfx es names acc).2 = none →
    ∀ n ∈ names, (fileContent es n).isSome := by
  intro names
  induction names with
  | nil => intro acc h n hn; simp at hn
  | cons n0 rest ih =>
    intro acc h n hn
    rw [readFilesLoop] at h
    rcases hread : readFile pfx es n0 with e | c
    · rw [hread] at h; simp at h
    · rw [hread] at h
      rcases List.mem_cons.mp hn with hn | hn
      · subst hn
        rw [readFile_ok_fileContent pfx es n c hread]
        rfl
      · exact ih _ h n hn

/-- When every listed file is readable, the loader succeeds and its map sends
each listed name to that file's content (and keeps other keys untouched). -/
theorem readFilesLoop_ok (pfx : List String) (es : FSEntries) :
    ∀ (names : List String) (acc : SMap String),
    (∀ n ∈ names, (fileContent es n).isSome) →
    (readFilesLoop pfx es names acc).2 = none ∧
    (∀ u, SMap.find (readFilesLoop pfx es names acc).1 u =
      if u ∈ names then fileContent es u else SMap.find acc u) := by
  intro names
  induction names with
  | nil => intro acc hall; simp [readFilesLoop]
  | cons n rest ih =>
    intro acc hall
    have hn : (fileContent es n).isSome := hall n (by simp)
    rcases hc : fileContent es n with _ | c
    · rw [hc] at hn; simp at hn
    · rw [readFilesLoop, readFile_eq_ok pfx es n c hc]
      have hrest := ih (SMap.insert acc n c) (fun u hu => hall u (by simp [hu]))
      refine ⟨hrest.1, ?_⟩
      intro u
      rw [hrest.2 u]
      by_cases hur : u ∈ rest
      · simp [hur]
      · by_cases hun : u = n
        · subst hun
          simp [hur, SMap.find_insert_self, hc]
        · simp [hur, hun, SMap.find_insert_ne _ _ _ _ hun]

/-- When exactly one listed file is unreadable, the loader fails with the
full path of that file (and returns the empty map, as Go returns `nil`). -/
theorem readFilesLoop_fail (pfx : List String) (es : FSEntries) :
    ∀ (names : List String) (acc : SMap String) (n0 : String),
    n0 ∈ names → ¬ (fileContent es n0).isSome →
    (∀ n ∈ names, n ≠ n0 → (fileContent es n).isSome) →
    readFilesLoop pfx es names acc = ([], some (.fileRead (pfx ++ [n0]))) := by
  intro names
  induction names with
  | nil => intro acc n0 h0; simp at h0
  | cons n rest ih =>
    intro acc n0 h0 hbad hothers
    by_cases hn : (fileContent es n).isSome
    · have hne : n ≠ n0 := fun h => hbad (h ▸ hn)
      have h0' : n0 ∈ rest := by
        rcases List.mem_cons.mp h0 with h | h
        · exact absurd h.symm hne
        · exact h
      rcases hc : fileContent es n with _ | c
      · rw [hc] at hn; simp at hn
      · rw [readFilesLoop, readFile_eq_ok pfx es n c hc]
        exact ih _ n0 h0' hbad (fun u hu => hothers u (by simp [hu]))
    · have hnn0 : n = n0 := by
        by_contra hne
        exact hn (hothers n (by simp) hne)
      subst hnn0
      rw [readFilesLoop, readFile_eq_error pfx es n hn]

/-- One unreadable listed file makes the loader fail (no partial success). -/
theorem readFilesLoop_fail_isSome (pfx : List String) (es : FSEntries) :
    ∀ (names : List String) (acc : SMap String) (n0 : String),
    n0 ∈ names → ¬ (fileContent es n0).isSome →
    (readFilesLoop pfx es names acc).2.isSome := by
  intro names
  induction names with
  | nil => intro acc n0 h0; simp at h0
  | cons n rest ih =>
    intro acc n0 h0 hbad
    rw [readFilesLoop]
    rcases hread : readFile pfx es n with e | c
    · simp
    · rcases List.mem_cons.mp h0 with h | h
      · subst h
        rw [readFile_ok_fileContent pfx es n0 c hread] at hbad
        simp at hbad
      · exact ih _ n0 h hbad

theorem FSEntries.toList_nil : FSEntries.nil.toList = [] := rfl

theorem FSEntries.toList_cons (n : String) (e : FSEntry) (rest : FSEntries) :
    (FSEntries.cons n e rest).toList = (n, e) :: rest.toList := rfl

/-- Names of the two required files of every error-key subdirectory. -/
def ekLevelFiles : List String := ["generic.md", "metadata.yaml"]

/-- Names of the five required files of the rule directory itself. -/
def ruleLevelFiles : List String :=
  ["summary.md", "reason.md", "resolution.md", "more_info.md", "plugin.yaml"]

/-- A required-file slot of a rule directory: one of the five files of the
rule directory itself, or one of the two files of one error-key
subdirectory. -/
inductive ReqSlot : Type where
  | ruleFile (name : String)
  | ekFile (ekName : String) (fname : String)
deriving DecidableEq

/-- The slot actually is required in the given rule directory. -/
def isReqSlot (es : FSEntries) : ReqSlot → Prop
  | .ruleFile f => f ∈ ruleLevelFiles
  | .ekFile k f => f ∈ ekLevelFiles ∧ ∃ sub, (k, FSEntry.dir sub) ∈ es.toList

/-- The slot's file can be read. -/
def slotReadable (es : FSEntries) : ReqSlot → Prop
  | .ruleFile f => (fileContent es f).isSome
  | .ekFile k f => ∀ sub, (k, FSEntry.dir sub) ∈ es.toList → (fileContent sub f).isSome

/-- Path of the slot's file relative to the rule directory's path. -/
def slotPath (pfx : List String) : ReqSlot → List String
  | .ruleFile f => pfx ++ [f]
  | .ekFile k f => pfx ++ [k, f]

/-- When every error-key file is readable and metadata always decodes, the
error-key pass succeeds. -/
theorem parseErrorEntries_ok (D : Decoders) (pfx : List String)
    (hmeta : ∀ s, ∃ v, D.meta s = Except.ok v) :
    ∀ (es : FSEntries) (m : SMap RuleErrorKeyContent),
    (∀ k sub f, (k, FSEntry.dir sub) ∈ es.toList → f ∈ ekLevelFiles →
      (fileContent sub f).isSome) →
    (parseErrorEntries D pfx es m).2 = none := by
  intro es
  induction es using FSEntries.inductionOn with
  | hnil => intro m hall; rfl
  | hcons n e rest ih =>
    intro m hall
    have hrest : ∀ k sub f, (k, FSEntry.dir sub) ∈ rest.toList → f ∈ ekLevelFiles →
        (fileContent sub f).isSome := by
      intro k sub f hk hf
      exact hall k sub f (by rw [FSEntries.toList_cons]; exact List.mem_cons_of_mem _ hk) hf
    cases e with
    | file c =>
      rw [parseErrorEntries]
      exact ih m hrest
    | dir sub =>
      have hhead : (n, FSEntry.dir sub) ∈ (FSEntries.cons n (FSEntry.dir sub) rest).toList := by
        rw [FSEntries.toList_cons]; exact List.mem_cons_self _ _
      have hg : (fileContent sub "generic.md").isSome :=
        hall n sub _ hhead (by simp [ekLevelFiles])
      have hmd : (fileContent sub "metadata.yaml").isSome :=
        hall n sub _ hhead (by simp [ekLevelFiles])
      rw [parseErrorEntries]
      rcases h1 : readFilesIntoString (pfx ++ [n]) sub ["generic.md"] with ⟨rs, oe1⟩
      have hoe1 : oe1 = none := by
        have h := (readFilesLoop_ok (pfx ++ [n]) sub ["generic.md"] []
          (by intro x hx; simp at hx; subst hx; exact hg)).1
        rw [readFilesIntoString] at h1
        rw [h1] at h
        exact h
      subst hoe1
      rcases h2 : readFilesIntoByteArray (pfx ++ [n]) sub ["metadata.yaml"] with ⟨rb, oe2⟩
      have hoe2 : oe2 = none := by
        have h := (readFilesLoop_ok (pfx ++ [n]) sub ["metadata.yaml"] []
          (by intro x hx; simp at hx; subst hx; exact hmd)).1
        rw [readFilesIntoByteArray] at h2
        rw [h2] at h
        exact h
      subst hoe2
      obtain ⟨v, hv⟩ := hmeta ((SMap.find rb "metadata.yaml").getD "")
      simp only [hv]
      exact ih _ hrest

/-- When exactly one error-key file is unreadable (and metadata always
decodes), the error-key pass fails with the full path of that file. -/
theorem parseErrorEntries_fail (D : Decoders) (pfx : List String)
    (hmeta : ∀ s, ∃ v, D.meta s = Except.ok v) :
    ∀ (es : FSEntries) (m : SMap RuleErrorKeyContent) (k0 f0 : String),
    f0 ∈ ekLevelFiles →
    (∃ sub0, (k0, FSEntry.dir sub0) ∈ es.toList ∧ ¬ (fileContent sub0 f0).isSome) →
    (∀ k sub f, (k, FSEntry.dir sub) ∈ es.toList → f ∈ ekLevelFiles →
      ¬ (k = k0 ∧ f = f0) → (fileContent sub f).isSome) →
    (parseErrorEntries D pfx es m).2 = some (ContentError.fileRead (pfx ++ [k0, f0])) := by
  intro es
  induction es using FSEntries.inductionOn with
  | hnil =>
    intro m k0 f0 hf0 hex hothers
    obtain ⟨sub0, hmem, _⟩ := hex
    rw [FSEntries.toList_nil] at hmem
    simp at hmem
  | hcons n e rest ih =>
    intro m k0 f0 hf0 hex hothers
    have hothers' : ∀ k sub f, (k, FSEntry.dir sub) ∈ rest.toList → f ∈ ekLevelFiles →
        ¬ (k = k0 ∧ f = f0) → (fileContent sub f).isSome := by
      intro k sub f hk hf hne
      exact hothers k sub f (by rw [FSEntries.toList_cons]; exact List.mem_cons_of_mem _ hk) hf hne
    cases e with
    | file c =>
      rw [parseErrorEntries]
      apply ih m k0 f0 hf0 ?_ hothers'
      obtain ⟨sub0, hmem, hbad⟩ := hex
      rw [FSEntries.toList_cons] at hmem
      rcases List.mem_cons.mp hmem with heq | hmem'
      · exact absurd (congrArg Prod.snd heq) (by simp)
      · exact ⟨sub0, hmem', hbad⟩
    | dir sub =>
      have hhead : (n, FSEntry.dir sub) ∈ (FSEntries.cons n (FSEntry.dir sub) rest).toList := by
        rw [FSEntries.toList_cons]; exact List.mem_cons_self _ _
      by_cases hgr : (fileContent sub "generic.md").isSome
      · rcases hcg : fileContent sub "generic.md" with _ | cg
        · rw [hcg] at hgr; simp at hgr
        · rw [parseErrorEntries]
          have hloop1 : readFilesIntoString (pfx ++ [n]) sub ["generic.md"] =
              readFilesLoop (pfx ++ [n]) sub ["generic.md"] [] := rfl
          obtain ⟨hok1, _⟩ := readFilesLoop_ok (pfx ++ [n]) sub ["generic.md"] []
            (by intro x hx; simp at hx; subst hx; exact hgr)
          rcases h1 : readFilesIntoString (pfx ++ [n]) sub ["generic.md"] with ⟨rs, oe1⟩
          have hoe1 : oe1 = none := by
            rw [hloop1] at h1; rw [h1] at hok1; exact hok1
          subst hoe1
          by_cases hmr : (fileContent sub "metadata.yaml").isSome
          · obtain ⟨hok2, _⟩ := readFilesLoop_ok (pfx ++ [n]) sub ["metadata.yaml"] []
              (by intro x hx; simp at hx; subst hx; exact hmr)
            rcases h2 : readFilesIntoByteArray (pfx ++ [n]) sub ["metadata.yaml"] with ⟨rb, oe2⟩
            have hoe2 : oe2 = none := by
              have hloop2 : readFilesIntoByteArray (pfx ++ [n]) sub ["metadata.yaml"] =
                  readFilesLoop (pfx ++ [n]) sub ["metadata.yaml"] [] := rfl
              rw [hloop2] at h2; rw [h2] at hok2; exact hok2
            subst hoe2
            obtain ⟨v, hv⟩ := hmeta ((SMap.find rb "metadata.yaml").getD "")
            simp only [hv]
            apply ih _ k0 f0 hf0 ?_ hothers'
            obtain ⟨sub0, hmem, hbad⟩ := hex
            rw [FSEntries.toList_cons] at hmem
            rcases List.mem_cons.mp hmem with heq | hmem'
            · exfalso
              have hk : sub0 = sub := by
                have h := congrArg Prod.snd heq
                simp at h
                exact h
              subst hk
              rcases (by simpa [ekLevelFiles] using hf0 : f0 = "generic.md" ∨ f0 = "metadata.yaml") with hf | hf
              · subst hf; exact hbad hgr
              · subst hf; exact hbad hmr
            · exact ⟨sub0, hmem', hbad⟩
          · have hkf : n = k0 ∧ "metadata.yaml" = f0 := by
              by_contra hne
              exact hmr (hothers n sub "metadata.yaml" hhead (by simp [ekLevelFiles]) hne)
            obtain ⟨hk, hf⟩ := hkf
            have h2 := readFilesLoop_fail (pfx ++ [n]) sub ["metadata.yaml"] [] "metadata.yaml"
              (by simp) hmr (by intro x hx hne; simp at hx; exact absurd hx hne)
            have hloop2 : readFilesIntoByteArray (pfx ++ [n]) sub ["metadata.yaml"] =
                readFilesLoop (pfx ++ [n]) sub ["metadata.yaml"] [] := rfl
            rw [hloop2, h2]
            subst hk; subst hf
            simp
      · have hkf : n = k0 ∧ "generic.md" = f0 := by
          by_contra hne
          exact hgr (hothers n sub "generic.md" hhead (by simp [ekLevelFiles]) hne)
        obtain ⟨hk, hf⟩ := hkf
        rw [parseErrorEntries]
        have h1 := readFilesLoop_fail (pfx ++ [n]) sub ["generic.md"] [] "generic.md"
          (by simp) hgr (by intro x hx hne; simp at hx; exact absurd hx hne)
        have hloop1 : readFilesIntoString (pfx ++ [n]) sub ["generic.md"] =
            readFilesLoop (pfx ++ [n]) sub ["generic.md"] [] := rfl
        rw [hloop1, h1]
        subst hk; subst hf
        simp

/-- The error-key pass never touches keys that are not entry names. -/
theorem parseErrorEntries_find_other (D : Decoders) (pfx : List String) :
    ∀ (es : FSEntries) (m : SMap RuleErrorKeyContent) (k : String),
    (∀ p ∈ es.toList, p.1 ≠ k) →
    SMap.find (parseErrorEntries D pfx es m).1 k = SMap.find m k := by
  intro es
  induction es using FSEntries.inductionOn with
  | hnil => intro m k hall; rfl
  | hcons n e rest ih =>
    intro m k hall
    have hnk : n ≠ k := hall (n, e) (by rw [FSEntries.toList_cons]; exact List.mem_cons_self _ _)
    have hrest : ∀ p ∈ rest.toList, p.1 ≠ k := by
      intro p hp
      exact hall p (by rw [FSEntries.toList_cons]; exact List.mem_cons_of_mem _ hp)
    cases e with
    | file c =>
      rw [parseErrorEntries]
      exact ih m k hrest
    | dir sub =>
      rw [parseErrorEntries]
      split
      · rfl
      · split
        · rfl
        · split
          · rfl
          · rw [ih _ k hrest, SMap.find_insert_ne _ _ _ _ (fun h => hnk h.symm)]

/-- On success, each error-key subdirectory's parsed content is found in the
resulting map under the subdirectory's name, and its `Generic` field is the
raw content of that subdirectory's `generic.md`. -/
theorem parseErrorEntries_find (D : Decoders) (pfx : List String) :
    ∀ (es : FSEntries) (m : SMap RuleErrorKeyContent),
    (parseErrorEntries D pfx es m).2 = none →
    (es.toList.map Prod.fst).Nodup →
    ∀ k sub, lookupList es k = some (FSEntry.dir sub) →
    ∃ ekc, SMap.find (parseErrorEntries D pfx es m).1 k = some ekc ∧
      ∀ c, fileContent sub "generic.md" = some c → ekc.Generic = c := by
  intro es
  induction es using FSEntries.inductionOn with
  | hnil =>
    intro m hsucc hnd k sub hlk
    rw [lookupList] at hlk
    simp at hlk
  | hcons n e rest ih =>
    intro m hsucc hnd k sub hlk
    have hnd' : (rest.toList.map Prod.fst).Nodup := by
      rw [FSEntries.toList_cons] at hnd
      simp at hnd
      exact hnd.2
    by_cases hk : n = k
    · have he : e = FSEntry.dir sub := by
        rw [lookupList, if_pos hk] at hlk
        exact Option.some.inj hlk
      subst he
      subst hk
      rw [parseErrorEntries] at hsucc ⊢
      split at hsucc
      · simp at hsucc
      · rename_i rs hpair1
        split at hsucc
        · simp at hsucc
        · rename_i rb hpair2
          split at hsucc
          · simp at hsucc
          · rename_i md hmd
            have hnotin : ∀ p ∈ rest.toList, p.1 ≠ n := by
              rw [FSEntries.toList_cons, List.map_cons, List.nodup_cons] at hnd
              intro p hp hcon
              exact hnd.1 (List.mem_map.mpr ⟨p, hp, hcon⟩)
            rw [parseErrorEntries_find_other D pfx rest _ n hnotin,
              SMap.find_insert_self]
            refine ⟨_, rfl, ?_⟩
            intro c hc
            have hread : ∀ x ∈ ["generic.md"], (fileContent sub x).isSome := by
              intro x hx
              simp at hx
              subst hx
              have hh := readFilesLoop_none_readable (pfx ++ [n]) sub ["generic.md"] []
                (by rw [show readFilesLoop (pfx ++ [n]) sub ["generic.md"] [] =
                      readFilesIntoString (pfx ++ [n]) sub ["generic.md"] from rfl, hpair1])
              exact hh "generic.md" (by simp)
            obtain ⟨_, hfind⟩ := readFilesLoop_ok (pfx ++ [n]) sub ["generic.md"] [] hread
            have hgen : SMap.find rs "generic.md" = fileContent sub "generic.md" := by
              have h := hfind "generic.md"
              rw [show readFilesLoop (pfx ++ [n]) sub ["generic.md"] [] =
                    readFilesIntoString (pfx ++ [n]) sub ["generic.md"] from rfl, hpair1] at h
              simpa using h
            simp only [hgen, hc]
            rfl
    · have hlk' : lookupList rest k = some (FSEntry.dir sub) := by
        rw [lookupList, if_neg hk] at hlk
        exact hlk
      cases e with
      | file c =>
        rw [parseErrorEntries] at hsucc ⊢
        exact ih m hsucc hnd' k sub hlk'
      | dir sub' =>
        rw [parseErrorEntries] at hsucc ⊢
        split at hsucc
        · simp at hsucc
        · rename_i rs hpair1
          split at hsucc
          · simp at hsucc
          · rename_i rb hpair2
            split at hsucc
            · simp at hsucc
            · rename_i md hmd
              exact ih _ hsucc hnd' k sub hlk'

/-- C6: for every well-formed rule directory (rule parse succeeded,
filesystem entry names unique), each of the four documentation fields of the
parsed `RuleContent` and each error key's `Generic` field equals exactly the
raw text content of the corresponding file on disk (round-trip identity for
pass-through fields). -/
theorem c6_roundtrip_passthrough (D : Decoders) (pfx : List String)
    (entries : FSEntries)
    (hnd : (entries.toList.map Prod.fst).Nodup)
    (hsucc : (parseRuleContent D pfx entries).2 = none) :
    (∀ c, fileContent entries "summary.md" = some c →
      (parseRuleContent D pfx entries).1.Summary = c) ∧
    (∀ c, fileContent entries "reason.md" = some c →
      (parseRuleContent D pfx entries).1.Reason = c) ∧
    (∀ c, fileContent entries "resolution.md" = some c →
      (parseRuleContent D pfx entries).1.Resolution = c) ∧
    (∀ c, fileContent entries "more_info.md" = some c →
      (parseRuleContent D pfx entries).1.MoreInfo = c) ∧
    (∀ k sub c, lookupList entries k = some (FSEntry.dir sub) →
      fileContent sub "generic.md" = some c →
      ∃ ekc, SMap.find (parseRuleContent D pfx entries).1.ErrorKeys k = some ekc ∧
        ekc.Generic = c) := by
  rw [parseRuleContent] at hsucc ⊢
  split at hsucc
  · simp at hsucc
  · rename_i mek hpe
    split at hsucc
    · simp at hsucc
    · rename_i rs hds
      split at hsucc
      · simp at hsucc
      · rename_i rb hbs
        split at hsucc
        · simp at hsucc
        · rename_i plug hplug
          have hdocsread : ∀ x ∈ contentFileNames, (fileContent entries x).isSome :=
            readFilesLoop_none_readable pfx entries contentFileNames []
              (by rw [show readFilesLoop pfx entries contentFileNames [] =
                    readFilesIntoString pfx entries contentFileNames from rfl, hds])
          obtain ⟨_, hfindd⟩ := readFilesLoop_ok pfx entries contentFileNames [] hdocsread
          have hfindd' : ∀ u, u ∈ contentFileNames →
              SMap.find rs u = fileContent entries u := by
            intro u hu
            have h := hfindd u
            rw [show readFilesLoop pfx entries contentFileNames [] =
                  readFilesIntoString pfx entries contentFileNames from rfl, hds] at h
            simpa [hu] using h
          refine ⟨?_, ?_, ?_, ?_, ?_⟩
          · intro c hc
            have h := hfindd' "summary.md" (by simp [contentFileNames])
            simp only
            rw [h, hc]
            rfl
          · intro c hc
            have h := hfindd' "reason.md" (by simp [contentFileNames])
            simp only
            rw [h, hc]
            rfl
          · intro c hc
            have h := hfindd' "resolution.md" (by simp [contentFileNames])
            simp only
            rw [h, hc]
            rfl
          · intro c hc
            have h := hfindd' "more_info.md" (by simp [contentFileNames])
            simp only
            rw [h, hc]
            rfl
          · intro k sub c hlk hc
            have hpesucc : (parseErrorEntries D pfx entries []).2 = none := by
              rw [show parseErrorEntries D pfx entries [] =
                    parseErrorContents D pfx entries from rfl, hpe]
            obtain ⟨ekc, hfind, hgen⟩ :=
              parseErrorEntries_find D pfx entries [] hpesucc hnd k sub hlk
            refine ⟨ekc, ?_, hgen c hc⟩
            rw [show parseErrorEntries D pfx entries [] =
                  parseErrorContents D pfx entries from rfl, hpe] at hfind
            exact hfind

/-- C5: for every rule directory in which exactly one required file
(`summary.md`, `reason.md`, `resolution.md`, `more_info.md`, `plugin.yaml`,
or an error-key subdirectory's `generic.md` or `metadata.yaml`) cannot be
read (and metadata that is read decodes), `parseRuleContent` fails with an
error carrying the full path of that missing file and returns the zero
`RuleContent` value; moreover the file-set loader has no partial-success
mode — one unreadable listed file fails the entire loader call. -/
theorem c5_missing_file_fails (D : Decoders) (pfx : List String)
    (entries : FSEntries) (s : ReqSlot)
    (hmeta : ∀ str, ∃ v, D.meta str = Except.ok v)
    (hreq : isReqSlot entries s)
    (hbad : ¬ slotReadable entries s)
    (hothers : ∀ s', isReqSlot entries s' → s' ≠ s → slotReadable entries s') :
    parseRuleContent D pfx entries =
      (zeroRuleContent, some (ContentError.fileRead (slotPath pfx s))) ∧
    (∀ (pfx' : List String) (es' : FSEntries) (names : List String) (n : String),
      n ∈ names → ¬ (fileContent es' n).isSome →
      (readFilesIntoString pfx' es' names).2.isSome) := by
  refine ⟨?_, fun pfx' es' names n hn hb =>
    readFilesLoop_fail_isSome pfx' es' names [] n hn hb⟩
  cases s with
  | ekFile k0 f0 =>
    obtain ⟨hf0, -⟩ := hreq
    simp only [slotReadable] at hbad
    push_neg at hbad
    obtain ⟨sub0, hmem, hbad0⟩ := hbad
    have hothers' : ∀ k sub f, (k, FSEntry.dir sub) ∈ entries.toList →
        f ∈ ekLevelFiles → ¬ (k = k0 ∧ f = f0) → (fileContent sub f).isSome := by
      intro k sub f hkmem hfek hne
      have hs' : isReqSlot entries (.ekFile k f) := ⟨hfek, sub, hkmem⟩
      have hneq : (ReqSlot.ekFile k f) ≠ (ReqSlot.ekFile k0 f0) := by
        intro heq
        rw [ReqSlot.ekFile.injEq] at heq
        exact hne heq
      exact hothers (.ekFile k f) hs' hneq sub hkmem
    have hfail : (parseErrorContents D pfx entries).2 =
        some (ContentError.fileRead (pfx ++ [k0, f0])) :=
      parseErrorEntries_fail D pfx hmeta entries [] k0 f0 hf0 ⟨sub0, hmem, hbad0⟩ hothers'
    rw [parseRuleContent]
    rcases hpe : parseErrorContents D pfx entries with ⟨mek, oe⟩
    rw [hpe] at hfail
    simp only at hfail
    subst hfail
    rfl
  | ruleFile f =>
    have hekread : ∀ k sub g, (k, FSEntry.dir sub) ∈ entries.toList →
        g ∈ ekLevelFiles → (fileContent sub g).isSome := by
      intro k sub g hkmem hgek
      have hs' : isReqSlot entries (.ekFile k g) := ⟨hgek, sub, hkmem⟩
      exact hothers (.ekFile k g) hs' (by intro h; cases h) sub hkmem
    have hpeok : (parseErrorContents D pfx entries).2 = none :=
      parseErrorEntries_ok D pfx hmeta entries [] hekread
    simp only [slotReadable] at hbad
    have hcases : f ∈ contentFileNames ∨ f = "plugin.yaml" := by
      simp only [isReqSlot, ruleLevelFiles] at hreq
      simp only [contentFileNames]
      simp at hreq ⊢
      tauto
    rw [parseRuleContent]
    rcases hpe : parseErrorContents D pfx entries with ⟨mek, oe⟩
    have hoe : oe = none := by rw [hpe] at hpeok; exact hpeok
    subst hoe
    rcases hcases with hdoc | hplug
    · have hothersdocs : ∀ x ∈ contentFileNames, x ≠ f → (fileContent entries x).isSome := by
        intro x hx hne
        have hxr : x ∈ ruleLevelFiles := by
          simp only [contentFileNames] at hx
          simp only [ruleLevelFiles]
          simp at hx ⊢
          tauto
        have hneq : (ReqSlot.ruleFile x) ≠ (ReqSlot.ruleFile f) := by
          intro heq
          rw [ReqSlot.ruleFile.injEq] at heq
          exact hne heq
        exact hothers (.ruleFile x) hxr hneq
      have hfail := readFilesLoop_fail pfx entries contentFileNames [] f hdoc hbad hothersdocs
      rw [show readFilesIntoString pfx entries contentFileNames =
            readFilesLoop pfx entries contentFileNames [] from rfl, hfail]
      rfl
    · subst hplug
      have hdocsread : ∀ x ∈ contentFileNames, (fileContent entries x).isSome := by
        intro x hx
        have hxr : x ∈ ruleLevelFiles := by
          simp only [contentFileNames] at hx
          simp only [ruleLevelFiles]
          simp at hx ⊢
          tauto
        have hneq : (ReqSlot.ruleFile x) ≠ (ReqSlot.ruleFile "plugin.yaml") := by
          intro heq
          rw [ReqSlot.ruleFile.injEq] at heq
          subst heq
          simp [contentFileNames] at hx
        exact hothers (.ruleFile x) hxr hneq
      obtain ⟨hdok, -⟩ := readFilesLoop_ok pfx entries contentFileNames [] hdocsread
      rcases hds : readFilesIntoString pfx entries contentFileNames with ⟨rs, oe1⟩
      have hoe1 : oe1 = none := by
        rw [show readFilesIntoString pfx entries contentFileNames =
              readFilesLoop pfx entries contentFileNames [] from rfl] at hds
        rw [hds] at hdok
        exact hdok
      subst hoe1
      have hfail := readFilesLoop_fail pfx entries ["plugin.yaml"] [] "plugin.yaml"
        (by simp) hbad (by intro x hx hne; simp at hx; exact absurd hx hne)
      rw [show readFilesIntoByteArray pfx entries ["plugin.yaml"] =
            readFilesLoop pfx entries ["plugin.yaml"] [] from rfl, hfail]
      rfl

/-- Decoders used by concrete witnesses: always succeed, storing the raw text
in the first field of each record. -/
def wDecoders : Decoders where
  config := fun _ => .ok ⟨[("total", 1)]⟩
  plugin := fun s => .ok ⟨s, "node", "pc", "pm"⟩
  meta := fun s => .ok ⟨s, "", "", 0, "", "", []⟩

/-- Witness error-key directory with both required files. -/
def wEkDir : FSEntry :=
  .dir (.cons "generic.md" (.file "GEN") (.cons "metadata.yaml" (.file "MD") .nil))

/-- Witness rule directory: one error key plus all five rule-level files. -/
def wRuleEntries : FSEntries :=
  .cons "EKEY1" wEkDir (.cons "summary.md" (.file "SUM")
    (.cons "reason.md" (.file "REA") (.cons "resolution.md" (.file "RES")
    (.cons "more_info.md" (.file "MOR") (.cons "plugin.yaml" (.file "PLG") .nil)))))

/-- Witness rule directory with no error keys and `summary.md` missing. -/
def wFlatNoSummary : FSEntries :=
  .cons "reason.md" (.file "REA") (.cons "resolution.md" (.file "RES")
    (.cons "more_info.md" (.file "MOR") (.cons "plugin.yaml" (.file "PLG") .nil)))

/-- C5 witness: concrete rule directory missing exactly `summary.md`. -/
theorem c5_witness :
    (¬ slotReadable wFlatNoSummary (.ruleFile "summary.md")) ∧
    (parseRuleContent wDecoders [] wFlatNoSummary =
        (zeroRuleContent,
          some (ContentError.fileRead (slotPath [] (.ruleFile "summary.md")))) ∧
      (∀ (pfx' : List String) (es' : FSEntries) (names : List String) (n : String),
        n ∈ names → ¬ (fileContent es' n).isSome →
        (readFilesIntoString pfx' es' names).2.isSome)) :=
  ⟨by simp only [slotReadable]; decide,
    c5_missing_file_fails wDecoders [] wFlatNoSummary (.ruleFile "summary.md")
      (fun str => ⟨⟨str, "", "", 0, "", "", []⟩, rfl⟩)
      (by simp only [isReqSlot, ruleLevelFiles]; decide)
      (by simp only [slotReadable]; decide)
      (by
        intro s' hreq' hne
        cases s' with
        | ruleFile g =>
          have hg : g = "summary.md" ∨ g = "reason.md" ∨ g = "resolution.md" ∨
              g = "more_info.md" ∨ g = "plugin.yaml" := by
            simpa [isReqSlot, ruleLevelFiles] using hreq'
          rcases hg with h | h | h | h | h <;> subst h
          · exact absurd rfl hne
          · simp only [slotReadable]; decide
          · simp only [slotReadable]; decide
          · simp only [slotReadable]; decide
          · simp only [slotReadable]; decide
        | ekFile k g =>
          exfalso
          obtain ⟨-, sub, hmem⟩ := hreq'
          simp [wFlatNoSummary, FSEntries.toList_cons, FSEntries.toList_nil] at hmem)⟩

/-- C6 witness: concrete well-formed rule directory, round-trip instance. -/
theorem c6_witness :
    ((wRuleEntries.toList.map Prod.fst).Nodup ∧
      (parseRuleContent wDecoders [] wRuleEntries).2 = none) ∧
    ((∀ c, fileContent wRuleEntries "summary.md" = some c →
      (parseRuleContent wDecoders [] wRuleEntries).1.Summary = c) ∧
    (∀ c, fileContent wRuleEntries "reason.md" = some c →
      (parseRuleContent wDecoders [] wRuleEntries).1.Reason = c) ∧
    (∀ c, fileContent wRuleEntries "resolution.md" = some c →
      (parseRuleContent wDecoders [] wRuleEntries).1.Resolution = c) ∧
    (∀ c, fileContent wRuleEntries "more_info.md" = some c →
      (parseRuleContent wDecoders [] wRuleEntries).1.MoreInfo = c) ∧
    (∀ k sub c, lookupList wRuleEntries k = some (FSEntry.dir sub) →
      fileContent sub "generic.md" = some c →
      ∃ ekc, SMap.find (parseRuleContent wDecoders [] wRuleEntries).1.ErrorKeys k = some ekc ∧
        ekc.Generic = c)) :=
  ⟨⟨by decide, by decide⟩,
    c6_roundtrip_passthrough wDecoders [] wRuleEntries (by decide) (by decide)⟩

/-- Specification-side classification of a subdirectory (spec §4.4 / §9): a
directory is either a rule directory or a namespace directory. -/
inductive DirClass : Type where
  | ruleDirectory
  | namespaceDirectory
deriving DecidableEq

/-- Specification-side classifier, following the spec's words: a directory is
a rule directory iff it directly contains a plugin descriptor file
(`plugin.yaml`) that is a regular file; nothing else contributes. -/
def classifyDir (sub : FSEntries) : DirClass :=
  match lookupList sub "plugin.yaml" with
  | some (.file _) => .ruleDirectory
  | _ => .namespaceDirectory

/-!
Specification-side walker, following the spec's §4.4 wording: for each
immediate subdirectory, dispatch on its classification; a rule directory is
parsed and inserted into the accumulator under the subdirectory's name, with
a parse failure propagated immediately (aborting the walk); a namespace
directory is recursed into with the same accumulator; non-directories are
ignored.
-/
mutual
def specWalkEntry (D : Decoders) (pfx : List String) (n : String)
    (m : SMap RuleContent) : FSEntry → SMap RuleContent × Option ContentError
  | .file _ => (m, none)
  | .dir sub =>
    match classifyDir sub with
    | .ruleDirectory =>
      match parseRuleContent D (pfx ++ [n]) sub with
      | (_, some err) => (m, some err)
      | (rc, none) => (SMap.insert m n rc, none)
    | .namespaceDirectory => specWalkEntries D (pfx ++ [n]) sub m
def specWalkEntries (D : Decoders) (pfx : List String) :
    FSEntries → SMap RuleContent → SMap RuleContent × Option ContentError
  | .nil, m => (m, none)
  | .cons n e rest, m =>
    match specWalkEntry D pfx n m e with
    | (m', none) => specWalkEntries D pfx rest m'
    | r => r
end

/-- The classifier is exactly the `plugin.yaml` probe of the source. -/
theorem classifyDir_eq_ite (sub : FSEntries) :
    classifyDir sub =
      if hasPluginFile sub then DirClass.ruleDirectory
      else DirClass.namespaceDirectory := by
  rw [classifyDir, hasPluginFile]
  cases hlk : lookupList sub "plugin.yaml" with
  | none => rfl
  | some e => cases e <;> rfl

mutual
theorem walkEntry_eq_spec (D : Decoders) (pfx : List String) (n : String)
    (m : SMap RuleContent) :
    (e : FSEntry) → walkEntry D pfx n m e = specWalkEntry D pfx n m e
  | .file c => rfl
  | .dir sub => by
    rw [walkEntry, specWalkEntry, classifyDir_eq_ite]
    by_cases h : hasPluginFile sub
    · simp only [h, if_pos]
    · simp only [h, if_neg, Bool.false_eq_true, Bool.not_eq_true]
      exact walkEntries_eq_spec D (pfx ++ [n]) sub m
theorem walkEntries_eq_spec (D : Decoders) (pfx : List String) :
    (es : FSEntries) → (m : SMap RuleContent) →
    walkEntries D pfx es m = specWalkEntries D pfx es m
  | .nil, m => rfl
  | .cons n e rest, m => by
    rw [walkEntries, specWalkEntries, walkEntry_eq_spec D pfx n m e]
    rcases h : specWalkEntry D pfx n m e with ⟨m', oe⟩
    cases oe with
    | none => exact walkEntries_eq_spec D pfx rest m'
    | some err => rfl
end

/-- C7: the tree walk classifies a subdirectory as a rule directory iff it
directly contains a `plugin.yaml` that is a regular file (the sole
discriminator — no naming convention contributes), and the source walker
coincides everywhere with the specification-side walker that parses rule
directories into the accumulator under the subdirectory's name, recurses into
namespace directories with the same accumulator, and aborts the whole walk on
the first failure. -/
theorem c7_rule_directory_classification (D : Decoders) :
    (∀ (pfx : List String) (es : FSEntries) (m : SMap RuleContent),
      parseRulesInDir D pfx (FSEntry.dir es) m = specWalkEntries D pfx es m) ∧
    (∀ sub : FSEntries, classifyDir sub = DirClass.ruleDirectory ↔
      ∃ c, lookupList sub "plugin.yaml" = some (FSEntry.file c)) ∧
    (∀ sub : FSEntries, hasPluginFile sub = true ↔
      classifyDir sub = DirClass.ruleDirectory) := by
  refine ⟨fun pfx es m => walkEntries_eq_spec D pfx es m, ?_, ?_⟩
  · intro sub
    rw [classifyDir]
    cases hlk : lookupList sub "plugin.yaml" with
    | none => simp
    | some e => cases e <;> simp
  · intro sub
    rw [hasPluginFile, classifyDir]
    cases hlk : lookupList sub "plugin.yaml" with
    | none => simp
    | some e => cases e <;> simp

/-!
Walk-order collection of the rule directories discovered below an entry (or
entry sequence): each collected item records the rule name (the directory's
name), the full path passed to the rule parser, and the directory's entries.
-/
mutual
def collectEntry (pfx : List String) (n : String) :
    FSEntry → List (String × List String × FSEntries)
  | .file _ => []
  | .dir sub =>
    if hasPluginFile sub then [(n, pfx ++ [n], sub)]
    else collectEntries (pfx ++ [n]) sub
def collectEntries (pfx : List String) :
    FSEntries → List (String × List String × FSEntries)
  | .nil => []
  | .cons n e rest => collectEntry pfx n e ++ collectEntries pfx rest
end

/-- One step of accumulating a parsed rule directory into the rules map. -/
def insertParsed (D : Decoders) (acc : SMap RuleContent)
    (x : String × List String × FSEntries) : SMap RuleContent :=
  SMap.insert acc x.1 (parseRuleContent D x.2.1 x.2.2).1

mutual
theorem walkEntry_collect (D : Decoders) (pfx : List String) (n : String)
    (m : SMap RuleContent) :
    (e : FSEntry) →
    (∀ x ∈ collectEntry pfx n e, (parseRuleContent D x.2.1 x.2.2).2 = none) →
    walkEntry D pfx n m e = ((collectEntry pfx n e).foldl (insertParsed D) m, none)
  | .file c, hall => rfl
  | .dir sub, hall => by
    rw [walkEntry, collectEntry]
    by_cases h : hasPluginFile sub
    · simp only [h, if_pos]
      have hx : (parseRuleContent D (pfx ++ [n]) sub).2 = none := by
        have := hall (n, pfx ++ [n], sub)
        rw [collectEntry] at this
        simp only [h, if_pos] at this
        exact this (by simp)
      rcases hp : parseRuleContent D (pfx ++ [n]) sub with ⟨rc, oe⟩
      rw [hp] at hx
      simp only at hx
      subst hx
      simp [List.foldl_cons, insertParsed, hp]
    · simp only [h, if_neg, Bool.false_eq_true, Bool.not_eq_true]
      have hall' : ∀ x ∈ collectEntries (pfx ++ [n]) sub,
          (parseRuleContent D x.2.1 x.2.2).2 = none := by
        intro x hx
        apply hall x
        rw [collectEntry]
        simp only [h, if_neg, Bool.false_eq_true, Bool.not_eq_true]
        exact hx
      exact walkEntries_collect D (pfx ++ [n]) sub m hall'
theorem walkEntries_collect (D : Decoders) (pfx : List String) :
    (es : FSEntries) → (m : SMap RuleContent) →
    (∀ x ∈ collectEntries pfx es, (parseRuleContent D x.2.1 x.2.2).2 = none) →
    walkEntries D pfx es m = ((collectEntries pfx es).foldl (insertParsed D) m, none)
  | .nil, m, hall => rfl
  | .cons n e rest, m, hall => by
    rw [walkEntries, collectEntries]
    have hallL : ∀ x ∈ collectEntry pfx n e, (parseRuleContent D x.2.1 x.2.2).2 = none := by
      intro x hx
      exact hall x (by rw [collectEntries]; exact List.mem_append_left _ hx)
    have hallR : ∀ x ∈ collectEntries pfx rest, (parseRuleContent D x.2.1 x.2.2).2 = none := by
      intro x hx
      exact hall x (by rw [collectEntries]; exact List.mem_append_right _ hx)
    rw [walkEntry_collect D pfx n m e hallL]
    simp only
    rw [walkEntries_collect D pfx rest _ hallR, List.foldl_append]
end

/-- Looking up a key after folding parsed insertions: the LAST collected rule
directory bearing that name wins; keys never collected keep their prior
binding (silent overwrite semantics of the Go map). -/
theorem foldl_insertParsed_find (D : Decoders) :
    ∀ (l : List (String × List String × FSEntries)) (m : SMap RuleContent) (k : String),
    SMap.find (l.foldl (insertParsed D) m) k =
      match l.reverse.find? (fun x => decide (x.1 = k)) with
      | some x => some (parseRuleContent D x.2.1 x.2.2).1
      | none => SMap.find m k := by
  intro l
  induction l with
  | nil => intro m k; rfl
  | cons x rest ih =>
    intro m k
    rw [List.foldl_cons, ih, List.reverse_cons, List.find?_append]
    cases hfind : rest.reverse.find? (fun x => decide (x.1 = k)) with
    | some y => rfl
    | none =>
      rw [show (Option.none).or (List.find? (fun z => decide (z.1 = k)) [x]) =
            List.find? (fun z => decide (z.1 = k)) [x] from rfl]
      have hins : insertParsed D m x =
          SMap.insert m x.1 (parseRuleContent D x.2.1 x.2.2).1 := rfl
      by_cases hk : x.1 = k
      · have hfx : List.find? (fun z => decide (z.1 = k)) [x] = some x := by
          simp [List.find?_cons, hk]
        rw [hfx]
        simp only [hins, SMap.find_insert, if_pos hk.symm]
      · have hfx : List.find? (fun z => decide (z.1 = k)) [x] = none := by
          simp [List.find?_cons, hk]
        rw [hfx, hins, SMap.find_insert_ne _ _ _ _ (fun h => hk h.symm)]

/-- C3: when rule directories under the two roots (or under different
namespace paths of one root) share a directory name, the later-parsed rule
silently overwrites the earlier entry in the rules map; since the external
root is walked before the internal root, the internal root's rule wins on a
cross-root collision.  Formally: with all discovered rule directories parsing
successfully, the binding of a colliding name in the final map is the parse
of the LAST rule directory of that name in walk order, which for a name also
present under the internal root lies in the internal walk. -/
theorem c3_internal_overwrites_external (D : Decoders) (root : FSEntry)
    (cfg : GlobalRuleConfig) (extEs intEs : FSEntries)
    (hcfg : readRootConfig D root = .ok cfg)
    (hext : lookupFS root "external" = some (FSEntry.dir extEs))
    (hint : lookupFS root "internal" = some (FSEntry.dir intEs))
    (hallok : ∀ x ∈ collectEntries ["external"] extEs ++ collectEntries ["internal"] intEs,
      (parseRuleContent D x.2.1 x.2.2).2 = none)
    (k : String) (pE : List String) (eE : FSEntries)
    (hcollision : (k, pE, eE) ∈ collectEntries ["external"] extEs)
    (pI : List String) (eI : FSEntries)
    (hlastI : (collectEntries ["internal"] intEs).reverse.find?
        (fun x => decide (x.1 = k)) = some (k, pI, eI)) :
    SMap.find (ParseRuleContentDir D root).1.Rules k =
      some (parseRuleContent D pI eI).1 := by
  have hallokE : ∀ x ∈ collectEntries ["external"] extEs,
      (parseRuleContent D x.2.1 x.2.2).2 = none :=
    fun x hx => hallok x (List.mem_append_left _ hx)
  have hallokI : ∀ x ∈ collectEntries ["internal"] intEs,
      (parseRuleContent D x.2.1 x.2.2).2 = none :=
    fun x hx => hallok x (List.mem_append_right _ hx)
  have hwE := walkEntries_collect D ["external"] extEs [] hallokE
  have hwI := walkEntries_collect D ["internal"] intEs
    ((collectEntries ["external"] extEs).foldl (insertParsed D) []) hallokI
  rw [ParseRuleContentDir]
  simp only [hcfg]
  simp only [walkRoot, hext, hint, parseRulesInDir]
  rw [hwE]
  simp only
  rw [hwI]
  simp only
  rw [foldl_insertParsed_find D (collectEntries ["internal"] intEs) _ k, hlastI]

/-- Entry sequence of a witness rule directory whose plugin text is `tagv`
(no error keys). -/
def wRuleDirEs (tagv : String) : FSEntries :=
  .cons "plugin.yaml" (.file tagv) (.cons "summary.md" (.file "SUM")
    (.cons "reason.md" (.file "REA") (.cons "resolution.md" (.file "RES")
    (.cons "more_info.md" (.file "MOR") .nil))))

/-- External root of the collision witness: `ns1/ruleA`. -/
def wExtEs : FSEntries :=
  .cons "ns1" (.dir (.cons "ruleA" (.dir (wRuleDirEs "EXT")) .nil)) .nil

/-- Internal root of the collision witness: `ruleA` directly. -/
def wIntEs : FSEntries := .cons "ruleA" (.dir (wRuleDirEs "INT")) .nil

/-- Witness content root with a `ruleA` collision across the two roots. -/
def wRoot1 : FSEntry := .dir
  (.cons "config.yaml" (.file "CFG")
    (.cons "external" (.dir wExtEs) (.cons "internal" (.dir wIntEs) .nil)))

/-- C3 witness: concrete cross-root collision; the internal parse wins. -/
theorem c3_witness :
    (("ruleA", ["external", "ns1", "ruleA"], wRuleDirEs "EXT") ∈
      collectEntries ["external"] wExtEs) ∧
    SMap.find (ParseRuleContentDir wDecoders wRoot1).1.Rules "ruleA" =
      some (parseRuleContent wDecoders ["internal", "ruleA"] (wRuleDirEs "INT")).1 :=
  ⟨by decide,
    c3_internal_overwrites_external wDecoders wRoot1 ⟨[("total", 1)]⟩ wExtEs wIntEs
      rfl rfl rfl (by decide)
      "ruleA" ["external", "ns1", "ruleA"] (wRuleDirEs "EXT") (by decide)
      ["internal", "ruleA"] (wRuleDirEs "INT") (by decide)⟩

/-!
The walk only ever inserts into the accumulator (even on failure paths), so
every key present before a walk is still present afterwards.
-/
mutual
theorem walkEntry_mono (D : Decoders) (pfx : List String) (n : String)
    (m : SMap RuleContent) (k : String) :
    (e : FSEntry) → (SMap.find m k).isSome →
    (SMap.find (walkEntry D pfx n m e).1 k).isSome
  | .file c, hk => hk
  | .dir sub, hk => by
    rw [walkEntry]
    by_cases h : hasPluginFile sub
    · simp only [h, if_pos]
      rcases hp : parseRuleContent D (pfx ++ [n]) sub with ⟨rc, oe⟩
      cases oe with
      | some err => exact hk
      | none => exact SMap.find_insert_isSome m n rc k hk
    · simp only [h, if_neg, Bool.false_eq_true, Bool.not_eq_true]
      exact walkEntries_mono D (pfx ++ [n]) m k sub hk
theorem walkEntries_mono (D : Decoders) (pfx : List String)
    (m : SMap RuleContent) (k : String) :
    (es : FSEntries) → (SMap.find m k).isSome →
    (SMap.find (walkEntries D pfx es m).1 k).isSome
  | .nil, hk => hk
  | .cons n e rest, hk => by
    rw [walkEntries]
    have h1 := walkEntry_mono D pfx n m k e hk
    rcases hw : walkEntry D pfx n m e with ⟨m', oe⟩
    rw [hw] at h1
    cases oe with
    | some err => exact h1
    | none => exact walkEntries_mono D pfx m' k rest h1
end

/-- The same monotonicity for a whole root walk. -/
theorem walkRoot_mono (D : Decoders) (root : FSEntry) (sub : String)
    (m : SMap RuleContent) (k : String) (hk : (SMap.find m k).isSome) :
    (SMap.find (walkRoot D root sub m).1 k).isSome := by
  rw [walkRoot]
  cases hlk : lookupFS root sub with
  | none => exact hk
  | some e =>
    cases e with
    | file c => exact hk
    | dir es => exact walkEntries_mono D [sub] m k es hk

/-- C9: when the walk of the internal root fails after the external root was
walked successfully, `ParseRuleContentDir` returns the error together with a
`RuleContentDirectory` that already contains the loaded global config and
(the key of) every rule parsed from the external root — a partially populated
tree is observable at the public interface alongside the error, not a zero
value. -/
theorem c9_partial_tree_on_internal_failure (D : Decoders) (root : FSEntry)
    (cfg : GlobalRuleConfig) (mExt mFin : SMap RuleContent) (err : ContentError)
    (hcfg : readRootConfig D root = .ok cfg)
    (hext : walkRoot D root "external" [] = (mExt, none))
    (hint : walkRoot D root "internal" mExt = (mFin, some err)) :
    ParseRuleContentDir D root = ({ Config := cfg, Rules := mFin }, some err) ∧
    (∀ k, (SMap.find mExt k).isSome → (SMap.find mFin k).isSome) := by
  constructor
  · rw [ParseRuleContentDir]
    simp only [hcfg, hext, hint]
  · intro k hk
    have h1 := walkRoot_mono D root "internal" mExt k hk
    rw [hint] at h1
    exact h1

/-- Witness content root with config and external but no internal root. -/
def wRoot2 : FSEntry := .dir
  (.cons "config.yaml" (.file "CFG") (.cons "external" (.dir wExtEs) .nil))

/-- C9 witness: concrete root whose internal walk fails (missing root
subdirectory) after the external root parsed one rule. -/
theorem c9_witness :
    ParseRuleContentDir wDecoders wRoot2 =
      ({ Config := ⟨[("total", 1)]⟩,
         Rules := (walkRoot wDecoders wRoot2 "external" []).1 },
        some (ContentError.dirRead ["internal"])) ∧
    (∀ k, (SMap.find (walkRoot wDecoders wRoot2 "external" []).1 k).isSome →
      (SMap.find (walkRoot wDecoders wRoot2 "external" []).1 k).isSome) :=
  c9_partial_tree_on_internal_failure wDecoders wRoot2 ⟨[("total", 1)]⟩
    (walkRoot wDecoders wRoot2 "external" []).1
    (walkRoot wDecoders wRoot2 "external" []).1
    (ContentError.dirRead ["internal"])
    rfl (by decide) (by decide)

/-- C10: `ParseRuleContentDir` requires the content root to contain a
readable, decodable `config.yaml` and both an `external` and an `internal`
subdirectory: if the config cannot be read or parsed, no walk output is
observable — the zero `RuleContentDirectory` is returned with the error — and
if either root subdirectory is missing or is not a directory, the call
returns an error even when the other root would parse successfully. -/
theorem c10_config_and_roots_required (D : Decoders) (root : FSEntry) :
    (∀ e, readRootConfig D root = .error e →
      ParseRuleContentDir D root = (zeroRuleContentDirectory, some e)) ∧
    (∀ cfg, readRootConfig D root = .ok cfg →
      (lookupFS root "external" = none ∨ lookupFS root "internal" = none ∨
        (∃ c, lookupFS root "external" = some (FSEntry.file c)) ∨
        (∃ c, lookupFS root "internal" = some (FSEntry.file c))) →
      ((ParseRuleContentDir D root).2).isSome) := by
  constructor
  · intro e he
    rw [ParseRuleContentDir]
    simp only [he]
  · intro cfg hcfg hmiss
    rw [ParseRuleContentDir]
    simp only [hcfg]
    rcases hwe : walkRoot D root "external" [] with ⟨mE, oeE⟩
    cases oeE with
    | some err => simp [hwe]
    | none =>
      rcases hwi : walkRoot D root "internal" mE with ⟨mI, oeI⟩
      cases oeI with
      | some err => simp [hwe, hwi]
      | none =>
        exfalso
        rcases hmiss with h | h | ⟨c, h⟩ | ⟨c, h⟩
        · rw [walkRoot, h] at hwe
          simp at hwe
        · rw [walkRoot, h] at hwi
          simp at hwi
        · rw [walkRoot, h] at hwe
          simp [parseRulesInDir] at hwe
        · rw [walkRoot, h] at hwi
          simp [parseRulesInDir] at hwi

/-- Witness content root with no `config.yaml`. -/
def wRootNoConfig : FSEntry := .dir (.cons "external" (.dir wExtEs) .nil)

/-- C10 witness: missing config yields the zero directory plus the error;
missing internal root yields an error despite a parseable external root. -/
theorem c10_witness :
    ParseRuleContentDir wDecoders wRootNoConfig =
      (zeroRuleContentDirectory, some (ContentError.fileRead ["config.yaml"])) ∧
    ((ParseRuleContentDir wDecoders wRoot2).2).isSome :=
  ⟨(c10_config_and_roots_required wDecoders wRootNoConfig).1
      (ContentError.fileRead ["config.yaml"]) rfl,
    (c10_config_and_roots_required wDecoders wRoot2).2 ⟨[("total", 1)]⟩ rfl
      (Or.inr (Or.inl rfl))⟩
